import Mathlib

/-!
# Verification of the funding-rate aggregation pipeline

Shallow embedding of `hype_funding_tracker.py`: asset-catalog discovery
(`get_all_perp_assets`), paginated funding-history retrieval with
rate-limit retry (`fetch_funding_history`), statistical summarization
(`calculate_stats`), per-coin assembly (`fetch_coin_data`) and the
sequential orchestration loop of `main`.

Modelling conventions:
* JSON numbers (funding rates, market quantities) are embedded as `ℚ`;
  timestamps (milliseconds) as `ℤ`.
* The upstream HTTP endpoint is an oracle: a stream `Nat → Resp` giving
  the outcome of the n-th request issued by the function under study.
  Recursive calls shift the oracle by the number of requests consumed.
* `time.sleep` calls are logged (seconds, in order) rather than executed.
* Python exceptions caught by a `try/except` are part of the oracle
  (`Resp.exn`, `CatalogEntry` failure shapes, explicit `raised` flags);
  within the embedding every function is total.
-/

namespace HypeFunding

/-- One funding-history record, the JSON object `{time, fundingRate}`
returned by the `fundingHistory` endpoint (`time` in ms, rate a fraction). -/
structure Obs where
  time : ℤ
  fundingRate : ℚ
deriving DecidableEq, Repr

/-- The ordering used by `sorted(data, key=lambda x: x['time'], reverse=True)`:
`a` precedes `b` when `b.time ≤ a.time`.  Insertion sort with this relation is
the stable descending-by-time sort that Python's `sorted(..., reverse=True)`
performs. -/
def obsGE (a b : Obs) : Prop := b.time ≤ a.time

instance : DecidableRel obsGE := fun a b => inferInstanceAs (Decidable (b.time ≤ a.time))

instance : IsTotal Obs obsGE := ⟨fun a b => le_total b.time a.time⟩

instance : IsTrans Obs obsGE := ⟨fun _ _ _ hab hbc => le_trans hbc hab⟩

/-- Embedding of `sorted_data = sorted(data, key=lambda x: x['time'], reverse=True)`. -/
def sortDesc (data : List Obs) : List Obs := data.insertionSort obsGE

/-- Python `max(xs)` (the guard `if rates else 0` supplies `0` when empty). -/
def maxQ : List ℚ → ℚ
  | [] => 0
  | x :: xs => xs.foldl max x

/-- Python `min(xs)` (the guard `if rates else 0` supplies `0` when empty). -/
def minQ : List ℚ → ℚ
  | [] => 0
  | x :: xs => xs.foldl min x

/-- The inner helper `sum_hours` of `calculate_stats`: sum of `fundingRate`
over the records of `sorted_data` with `d['time'] >= now - hours*60*60*1000`. -/
def sum_hours (sorted_data : List Obs) (now : ℤ) (hours : ℕ) : ℚ :=
  ((sorted_data.filter fun d => now - (hours : ℤ) * 60 * 60 * 1000 ≤ d.time).map
    Obs.fundingRate).sum

/-- The dict returned by `calculate_stats` for a non-empty history. -/
structure Stats where
  rate8h : ℚ
  sum1d : ℚ
  sum3d : ℚ
  sum7d : ℚ
  sum30d : ℚ
  avg : ℚ
  max : ℚ
  min : ℚ
  count : ℕ
deriving DecidableEq, Repr

/-- Embedding of `calculate_stats(data)`.  The Python function reads the wall clock
(`datetime.now().timestamp() * 1000`); the embedding makes that reading an
explicit parameter `now`.  `None` is `Option.none`. -/
def calculate_stats (data : List Obs) (now : ℤ) : Option Stats :=
  if data = [] then none
  else
    let sorted_data := sortDesc data
    let rates := data.map Obs.fundingRate
    some
      { rate8h := match sorted_data with | [] => 0 | d :: _ => d.fundingRate
        sum1d := sum_hours sorted_data now 24
        sum3d := sum_hours sorted_data now 72
        sum7d := sum_hours sorted_data now 168
        sum30d := sum_hours sorted_data now 720
        avg := if rates = [] then 0 else rates.sum / (rates.length : ℚ)
        max := maxQ rates
        min := minQ rates
        count := data.length }

/-- Outcome of one `requests.post(API_URL, json=payload, timeout=15)` inside
`fetch_funding_history`, as discriminated by the Python code:
* `ok data`   — status 200 and `response.json()` is a JSON list of records;
* `badBody`   — status 200 but the body is falsy or not a list
  (`if not data or not isinstance(data, list)`);
* `rateLimited` — `status_code == 429`;
* `otherStatus` — any other non-200 status;
* `exn`       — the request or `response.json()` raised an exception. -/
inductive Resp where
  | ok (data : List Obs)
  | badBody
  | rateLimited
  | otherStatus
  | exn
deriving DecidableEq, Repr

/-- What one round of the inner retry loop tells the outer pagination loop:
`ret extra` — `return all_data` was executed after extending by `extra`
(`extra = []` on the failure paths, the short final page otherwise);
`next data` — a full page was accumulated and the cursor advances (`break`). -/
inductive InnerRes where
  | ret (extra : List Obs)
  | next (data : List Obs)
deriving DecidableEq, Repr

/-- Trace of the inner retry loop: its result, the seconds slept
(`time.sleep` arguments, in order) and the `startTime` field of each request
payload actually issued. -/
structure RetryOut where
  res : InnerRes
  sleeps : List ℕ
  issued : List ℤ
deriving DecidableEq, Repr

/-- Embedding of `last_time = max(d['time'] for d in data)` (on a non-empty page). -/
def maxTime : List Obs → ℤ
  | [] => 0
  | o :: rest => rest.foldl (fun m x => max m x.time) o.time

/-- The inner `for retry in range(max_retries)` loop of `fetch_funding_history`
for a single page, with `max_retries = 3`.  `fuel` is the number of attempts
remaining (the loop is entered with `fuel = 3`, so the current 0-based retry
index is `3 - fuel` and the 429 backoff `(retry + 1) * 2` is `(3 - fuel') * 2`
where `fuel'` is the fuel left after this attempt).  `fuel = 0` is the `else`
clause of the exhausted `for` loop: `return all_data`.  `cursor` is the
`startTime` of the payload, identical for every attempt of the same page. -/
def retryAux (oracle : ℕ → Resp) (cursor : ℤ) : ℕ → RetryOut
  | 0 => ⟨.ret [], [], []⟩
  | fuel + 1 =>
    match oracle 0 with
    | .ok data =>
      if data = [] then ⟨.ret [], [], [cursor]⟩
      else if data.length < 500 then ⟨.ret data, [], [cursor]⟩
      else ⟨.next data, [], [cursor]⟩
    | .badBody => ⟨.ret [], [], [cursor]⟩
    | .rateLimited =>
      let o := retryAux (fun i => oracle (i + 1)) cursor fuel
      ⟨o.res, (3 - fuel) * 2 :: o.sleeps, cursor :: o.issued⟩
    | .otherStatus => ⟨.ret [], [], [cursor]⟩
    | .exn =>
      if fuel = 0 then ⟨.ret [], [], [cursor]⟩
      else
        let o := retryAux (fun i => oracle (i + 1)) cursor fuel
        ⟨o.res, 1 :: o.sleeps, cursor :: o.issued⟩

/-- Trace of a whole `fetch_funding_history` call: the returned history plus
sleeps, issued request cursors and the number of outer pagination iterations
(`for iteration in range(max_iterations)`) that were entered. -/
structure FetchOut where
  history : List Obs
  sleeps : List ℕ
  issued : List ℤ
  pages : ℕ
deriving DecidableEq, Repr

/-- The outer `for iteration in range(max_iterations)` loop of
`fetch_funding_history` (`max_iterations = 20`); `fuel` iterations remain,
`acc` is `all_data`, `cursor` is `current_start`.  `fuel = 0` is the fall
through `return all_data` after the loop. -/
def pageAux (oracle : ℕ → Resp) : ℕ → List Obs → ℤ → FetchOut
  | 0, acc, _ => ⟨acc, [], [], 0⟩
  | fuel + 1, acc, cursor =>
    let o := retryAux oracle cursor 3
    match o.res with
    | .ret extra => ⟨acc ++ extra, o.sleeps, o.issued, 1⟩
    | .next data =>
      let rest := pageAux (fun i => oracle (i + o.issued.length)) fuel
        (acc ++ data) (maxTime data + 1)
      ⟨rest.history, o.sleeps ++ rest.sleeps, o.issued ++ rest.issued, 1 + rest.pages⟩

/-- Embedding of `fetch_funding_history(coin, start_time, end_time)`.  The coin and the
optional `endTime` only shape the request payload, which the oracle
abstracts; the `startTime` cursor is tracked because pagination updates it. -/
def fetch_funding_history (oracle : ℕ → Resp) (start_time : ℤ)
    (end_time : Option ℤ) : FetchOut :=
  pageAux oracle 20 [] start_time

/-- The per-coin record `{'history': ..., 'stats': ...}`. -/
structure CoinRecord where
  history : List Obs
  stats : Option Stats
deriving DecidableEq, Repr

/-- Embedding of `fetch_coin_data(coin, start_time, end_time)`.  Here `now` is the wall-clock
reading used by `calculate_stats`; `raised` models an exception escaping the
`try` body (every call inside it is total in this embedding, so the
exceptional path caught by `except: pass` is represented by this flag). -/
def fetch_coin_data (coin : String) (oracle : ℕ → Resp)
    (start_time end_time now : ℤ) (raised : Bool) : String × CoinRecord :=
  if raised then (coin, ⟨[], none⟩)
  else
    let history := (fetch_funding_history oracle start_time (some end_time)).history
    if history = [] then (coin, ⟨[], none⟩)
    else (coin, ⟨history, calculate_stats history now⟩)

/-- Per-symbol market snapshot built from one `(asset, ctx)` pair of the
`metaAndAssetCtxs` response (the four `float(ctx.get(..., 0))` fields). -/
structure MarketSnapshot where
  volume24h : ℚ
  openInterest : ℚ
  markPx : ℚ
  funding : ℚ
deriving DecidableEq, Repr

/-- The zeroed snapshot `{'volume24h': 0, 'openInterest': 0, 'markPx': 0,
'funding': 0}` used in `main` when a coin has no catalog entry. -/
def zeroSnapshot : MarketSnapshot := ⟨0, 0, 0, 0⟩

/-- One element of `zip(meta['universe'], asset_ctxs)` as the catalog loop
sees it:
* `good name snap` — `asset['name']` and all four `float` conversions succeed;
* `badName`        — reading `asset['name']` raises (entry without a name);
* `badCtx name`    — the name is appended but a `float(ctx.get(...))`
  conversion raises afterwards. -/
inductive CatalogEntry where
  | good (name : String) (snap : MarketSnapshot)
  | badName
  | badCtx (name : String)
deriving DecidableEq, Repr

/-- Outcome of the single `metaAndAssetCtxs` request of one namespace:
transport/parse exception, non-200 status, a 200 body that is not a list of
length ≥ 2, or a well-shaped body whose zipped entries are `entries`. -/
inductive CatalogResp where
  | exn
  | notOk
  | malformed
  | ok (entries : List CatalogEntry)
deriving DecidableEq, Repr

/-- The `for asset, ctx in zip(...)` accumulation loop of one namespace.
The first failing entry raises; the exception is caught by the surrounding
`except`, so everything appended before the raise is kept: `badName` stops
with nothing further added, `badCtx n` stops after appending `n` to the
asset list but before storing its snapshot. -/
def zipAccum : List CatalogEntry → List String × List (String × MarketSnapshot)
  | [] => ([], [])
  | .good n s :: rest => (n :: (zipAccum rest).1, (n, s) :: (zipAccum rest).2)
  | .badName :: _ => ([], [])
  | .badCtx n :: _ => ([n], [])

/-- One namespace block of `get_all_perp_assets`: the assets and market-data
dict accumulated for that namespace given its request outcome. -/
def fetchNamespace (resp : CatalogResp) : List String × List (String × MarketSnapshot) :=
  match resp with
  | .exn => ([], [])
  | .notOk => ([], [])
  | .malformed => ([], [])
  | .ok entries => zipAccum entries

/-- Python-dict lookup on an association list built by repeated assignment:
the **last** binding of a key wins. -/
def alookup (l : List (String × MarketSnapshot)) (k : String) : Option MarketSnapshot :=
  (l.reverse.find? fun p => p.1 == k).map Prod.snd

/-- Embedding of `get_all_perp_assets(include_main_perp)`: the main-perp block runs only
under the flag, the HIP-3 block always runs, and
`all_market_data = {**main_market_data, **hip3_market_data}` is the
concatenation (later entries win on lookup). -/
def get_all_perp_assets (include_main_perp : Bool)
    (mainResp hip3Resp : CatalogResp) :
    List String × List String × List (String × MarketSnapshot) :=
  let (main_assets, main_md) :=
    if include_main_perp then fetchNamespace mainResp else ([], [])
  let (hip3_assets, hip3_md) := fetchNamespace hip3Resp
  (main_assets, hip3_assets, main_md ++ hip3_md)

/-- The per-coin dict stored into `all_data` by `main` (the `'market'` field
is `none` when the `except` branch stored Python's empty dict
`market_data.get(coin, {})` for an unknown coin). -/
structure FullRecord where
  history : List Obs
  stats : Option Stats
  market : Option MarketSnapshot
deriving DecidableEq, Repr

/-- The body of the `for i, coin in enumerate(all_assets, 1)` loop of `main`
for one coin, producing the key and value stored into `all_data`:
* `raisedOuter` — an exception reaching `main`'s own `except` branch, which
  stores `{'history': [], 'stats': None, 'market': market_data.get(coin, {})}`
  under `coin`;
* otherwise `fetch_coin_data` runs (with its internal `raisedInner` flag) and
  the record is stored under the returned `coin_key` with the market snapshot
  attached (`market_data[coin]` if present, a zeroed dict otherwise). -/
def processCoin (coin : String) (market_data : List (String × MarketSnapshot))
    (oracle : ℕ → Resp) (start_time end_time now : ℤ)
    (raisedInner raisedOuter : Bool) : String × FullRecord :=
  if raisedOuter then (coin, ⟨[], none, alookup market_data coin⟩)
  else
    let (coin_key, data) := fetch_coin_data coin oracle start_time end_time now raisedInner
    (coin_key, ⟨data.history, data.stats,
      some ((alookup market_data coin).getD zeroSnapshot)⟩)

/-- The orchestration loop of `main`: sequentially process every coin of
`all_assets` and insert its record into the dict `all_data` (modelled as a
lookup function; insertion overwrites).  `behav` gives each coin its oracle,
`raisedInner`/`raisedOuter` give each coin its exception behaviour. -/
def mainLoop (all_assets : List String)
    (market_data : List (String × MarketSnapshot)) (behav : String → ℕ → Resp)
    (raisedInner raisedOuter : String → Bool) (start_time end_time now : ℤ) :
    String → Option FullRecord :=
  all_assets.foldl
    (fun m coin =>
      let (k, v) := processCoin coin market_data (behav coin) start_time end_time now
        (raisedInner coin) (raisedOuter coin)
      fun x => if x = k then some v else m x)
    (fun _ => none)

/-! ## Lemmas about the descending sort -/

lemma sortDesc_perm (data : List Obs) : List.Perm (sortDesc data) data :=
  List.perm_insertionSort _ _

lemma sortDesc_sorted (data : List Obs) : List.Sorted obsGE (sortDesc data) :=
  List.sorted_insertionSort _ _

lemma sortDesc_eq_nil_iff {data : List Obs} : sortDesc data = [] ↔ data = [] := by
  constructor
  · intro h
    have := (sortDesc_perm data).symm
    rw [h] at this
    exact this.eq_nil
  · intro h
    rw [h]
    rfl

lemma head_time_max {data : List Obs} {d : Obs} {rest : List Obs}
    (h : sortDesc data = d :: rest) : ∀ x ∈ data, x.time ≤ d.time := by
  intro x hx
  have hx' : x ∈ d :: rest := by
    rw [← h]
    exact (sortDesc_perm data).mem_iff.2 hx
  rcases List.mem_cons.1 hx' with rfl | hx''
  · exact le_refl _
  · have hs := sortDesc_sorted data
    rw [h, List.sorted_cons] at hs
    exact hs.1 x hx''

/-! ## Lemmas about Python `max` / `min` over a list -/

lemma le_foldl_max (l : List ℚ) (a : ℚ) : a ≤ l.foldl max a := by
  induction l generalizing a with
  | nil => exact le_refl a
  | cons b t ih =>
    simp only [List.foldl_cons]
    exact le_trans (le_max_left a b) (ih (max a b))

lemma mem_le_foldl_max {l : List ℚ} {x : ℚ} (h : x ∈ l) (a : ℚ) :
    x ≤ l.foldl max a := by
  induction l generalizing a with
  | nil => cases h
  | cons b t ih =>
    simp only [List.foldl_cons]
    rcases List.mem_cons.1 h with rfl | h'
    · exact le_trans (le_max_right a x) (le_foldl_max t (max a x))
    · exact ih h' (max a b)

lemma foldl_max_mem (l : List ℚ) (a : ℚ) :
    l.foldl max a = a ∨ l.foldl max a ∈ l := by
  induction l generalizing a with
  | nil => exact Or.inl rfl
  | cons b t ih =>
    simp only [List.foldl_cons]
    rcases ih (max a b) with h | h
    · rcases max_choice a b with h' | h'
      · exact Or.inl (h.trans h')
      · exact Or.inr (by rw [h, h']; exact List.mem_cons_self b t)
    · exact Or.inr (List.mem_cons_of_mem b h)

lemma le_maxQ {l : List ℚ} {x : ℚ} (h : x ∈ l) : x ≤ maxQ l := by
  cases l with
  | nil => cases h
  | cons b t =>
    simp only [maxQ]
    rcases List.mem_cons.1 h with rfl | h'
    · exact le_foldl_max t x
    · exact mem_le_foldl_max h' b

lemma maxQ_mem {l : List ℚ} (h : l ≠ []) : maxQ l ∈ l := by
  cases l with
  | nil => exact absurd rfl h
  | cons b t =>
    simp only [maxQ]
    rcases foldl_max_mem t b with h' | h'
    · rw [h']
      exact List.mem_cons_self b t
    · exact List.mem_cons_of_mem b h'

lemma foldl_min_le (l : List ℚ) (a : ℚ) : l.foldl min a ≤ a := by
  induction l generalizing a with
  | nil => exact le_refl a
  | cons b t ih =>
    simp only [List.foldl_cons]
    exact le_trans (ih (min a b)) (min_le_left a b)

lemma foldl_min_le_mem {l : List ℚ} {x : ℚ} (h : x ∈ l) (a : ℚ) :
    l.foldl min a ≤ x := by
  induction l generalizing a with
  | nil => cases h
  | cons b t ih =>
    simp only [List.foldl_cons]
    rcases List.mem_cons.1 h with rfl | h'
    · exact le_trans (foldl_min_le t (min a x)) (min_le_right a x)
    · exact ih h' (min a b)

lemma foldl_min_mem (l : List ℚ) (a : ℚ) :
    l.foldl min a = a ∨ l.foldl min a ∈ l := by
  induction l generalizing a with
  | nil => exact Or.inl rfl
  | cons b t ih =>
    simp only [List.foldl_cons]
    rcases ih (min a b) with h | h
    · rcases min_choice a b with h' | h'
      · exact Or.inl (h.trans h')
      · exact Or.inr (by rw [h, h']; exact List.mem_cons_self b t)
    · exact Or.inr (List.mem_cons_of_mem b h)

lemma minQ_le {l : List ℚ} {x : ℚ} (h : x ∈ l) : minQ l ≤ x := by
  cases l with
  | nil => cases h
  | cons b t =>
    simp only [minQ]
    rcases List.mem_cons.1 h with rfl | h'
    · exact foldl_min_le t x
    · exact foldl_min_le_mem h' b

lemma minQ_mem {l : List ℚ} (h : l ≠ []) : minQ l ∈ l := by
  cases l with
  | nil => exact absurd rfl h
  | cons b t =>
    simp only [minQ]
    rcases foldl_min_mem t b with h' | h'
    · rw [h']
      exact List.mem_cons_self b t
    · exact List.mem_cons_of_mem b h'

lemma avg_le_maxQ {l : List ℚ} (h : l ≠ []) :
    l.sum / (l.length : ℚ) ≤ maxQ l := by
  have hlen : 0 < (l.length : ℚ) := by
    exact_mod_cast List.length_pos.2 h
  rw [div_le_iff₀ hlen, mul_comm]
  have hs := List.sum_le_card_nsmul l (maxQ l) fun x hx => le_maxQ hx
  rwa [nsmul_eq_mul] at hs

lemma minQ_le_avg {l : List ℚ} (h : l ≠ []) :
    minQ l ≤ l.sum / (l.length : ℚ) := by
  have hlen : 0 < (l.length : ℚ) := by
    exact_mod_cast List.length_pos.2 h
  rw [le_div_iff₀ hlen, mul_comm]
  have hs := List.card_nsmul_le_sum l (minQ l) fun x hx => minQ_le hx
  rwa [nsmul_eq_mul] at hs

/-- Applying `sum_hours` to the sorted copy equals the sum over the matching records
of the original history (sorting permutes, filtering and summing respect
permutations). -/
lemma sum_hours_sortDesc (data : List Obs) (now : ℤ) (hours : ℕ) :
    sum_hours (sortDesc data) now hours =
      ((data.filter fun d => now - (hours : ℤ) * 60 * 60 * 1000 ≤ d.time).map
        Obs.fundingRate).sum := by
  unfold sum_hours
  exact List.Perm.sum_eq (((sortDesc_perm data).filter _).map _)

/-- Explicit form of `calculate_stats` on a non-empty history. -/
lemma calculate_stats_eq (data : List Obs) (now : ℤ) (h : data ≠ []) :
    calculate_stats data now = some
      { rate8h := match sortDesc data with | [] => 0 | d :: _ => d.fundingRate
        sum1d := sum_hours (sortDesc data) now 24
        sum3d := sum_hours (sortDesc data) now 72
        sum7d := sum_hours (sortDesc data) now 168
        sum30d := sum_hours (sortDesc data) now 720
        avg := if data.map Obs.fundingRate = [] then 0
          else (data.map Obs.fundingRate).sum /
            ((data.map Obs.fundingRate).length : ℚ)
        max := maxQ (data.map Obs.fundingRate)
        min := minQ (data.map Obs.fundingRate)
        count := data.length } := by
  unfold calculate_stats
  rw [if_neg h]

/-- C5: for every non-empty history and reference time `now`, each of the
four windowed statistics (1d, 3d, 7d, 30d) equals the sum (not an average)
of the `fundingRate` of exactly those observations whose timestamp is at
least `now` minus the window length (24h, 72h, 168h, 720h in ms). -/
theorem calculate_stats_window_sums (data : List Obs) (now : ℤ)
    (h : data ≠ []) :
    ∃ s, calculate_stats data now = some s ∧
      s.sum1d = ((data.filter fun d => now - 24 * 60 * 60 * 1000 ≤ d.time).map
        Obs.fundingRate).sum ∧
      s.sum3d = ((data.filter fun d => now - 72 * 60 * 60 * 1000 ≤ d.time).map
        Obs.fundingRate).sum ∧
      s.sum7d = ((data.filter fun d => now - 168 * 60 * 60 * 1000 ≤ d.time).map
        Obs.fundingRate).sum ∧
      s.sum30d = ((data.filter fun d => now - 720 * 60 * 60 * 1000 ≤ d.time).map
        Obs.fundingRate).sum := by
  refine ⟨_, calculate_stats_eq data now h, ?_, ?_, ?_, ?_⟩ <;>
    · dsimp only
      rw [sum_hours_sortDesc]
      norm_num

/-- Witness for C5 at the one-record history `[{time := 0, fundingRate := 1}]`
and `now = 0`. -/
theorem calculate_stats_window_sums_witness :
    ∃ s, calculate_stats [⟨0, 1⟩] 0 = some s ∧
      s.sum1d = (([(⟨0, 1⟩ : Obs)].filter fun d =>
        (0 : ℤ) - 24 * 60 * 60 * 1000 ≤ d.time).map Obs.fundingRate).sum ∧
      s.sum3d = (([(⟨0, 1⟩ : Obs)].filter fun d =>
        (0 : ℤ) - 72 * 60 * 60 * 1000 ≤ d.time).map Obs.fundingRate).sum ∧
      s.sum7d = (([(⟨0, 1⟩ : Obs)].filter fun d =>
        (0 : ℤ) - 168 * 60 * 60 * 1000 ≤ d.time).map Obs.fundingRate).sum ∧
      s.sum30d = (([(⟨0, 1⟩ : Obs)].filter fun d =>
        (0 : ℤ) - 720 * 60 * 60 * 1000 ≤ d.time).map Obs.fundingRate).sum :=
  calculate_stats_window_sums [⟨0, 1⟩] 0 (by simp)

/-- C6: for every non-empty history the stats are non-null, `count` is the
history length, `avg`/`max`/`min` are computed over the rates of the entire
history (not a trailing sub-window), and `min ≤ avg ≤ max`. -/
theorem calculate_stats_count_avg_bounds (data : List Obs) (now : ℤ)
    (h : data ≠ []) :
    ∃ s, calculate_stats data now = some s ∧
      s.count = data.length ∧
      s.avg = (data.map Obs.fundingRate).sum /
        ((data.map Obs.fundingRate).length : ℚ) ∧
      s.max ∈ data.map Obs.fundingRate ∧
      (∀ r ∈ data.map Obs.fundingRate, r ≤ s.max) ∧
      s.min ∈ data.map Obs.fundingRate ∧
      (∀ r ∈ data.map Obs.fundingRate, s.min ≤ r) ∧
      s.min ≤ s.avg ∧ s.avg ≤ s.max := by
  have hrates : data.map Obs.fundingRate ≠ [] := by simpa using h
  refine ⟨_, calculate_stats_eq data now h, rfl, ?_, maxQ_mem hrates,
    fun r hr => le_maxQ hr, minQ_mem hrates, fun r hr => minQ_le hr, ?_, ?_⟩
  · dsimp only
    rw [if_neg hrates]
  · dsimp only
    rw [if_neg hrates]
    exact minQ_le_avg hrates
  · dsimp only
    rw [if_neg hrates]
    exact avg_le_maxQ hrates

/-- Witness for C6 at the history `[{time := 0, fundingRate := 1},
{time := 5, fundingRate := 3}]` and `now = 7`. -/
theorem calculate_stats_count_avg_bounds_witness :
    ∃ s, calculate_stats [⟨0, 1⟩, ⟨5, 3⟩] 7 = some s ∧
      s.count = [(⟨0, 1⟩ : Obs), ⟨5, 3⟩].length ∧
      s.avg = ([(⟨0, 1⟩ : Obs), ⟨5, 3⟩].map Obs.fundingRate).sum /
        (([(⟨0, 1⟩ : Obs), ⟨5, 3⟩].map Obs.fundingRate).length : ℚ) ∧
      s.max ∈ [(⟨0, 1⟩ : Obs), ⟨5, 3⟩].map Obs.fundingRate ∧
      (∀ r ∈ [(⟨0, 1⟩ : Obs), ⟨5, 3⟩].map Obs.fundingRate, r ≤ s.max) ∧
      s.min ∈ [(⟨0, 1⟩ : Obs), ⟨5, 3⟩].map Obs.fundingRate ∧
      (∀ r ∈ [(⟨0, 1⟩ : Obs), ⟨5, 3⟩].map Obs.fundingRate, s.min ≤ r) ∧
      s.min ≤ s.avg ∧ s.avg ≤ s.max :=
  calculate_stats_count_avg_bounds [⟨0, 1⟩, ⟨5, 3⟩] 7 (by simp)

/-- C7: `calculate_stats` is a pure function of the history and the
wall-clock reading `now` (made an explicit input in this embedding): equal
inputs give identical results. -/
theorem calculate_stats_deterministic (d₁ d₂ : List Obs) (n₁ n₂ : ℤ)
    (hd : d₁ = d₂) (hn : n₁ = n₂) :
    calculate_stats d₁ n₁ = calculate_stats d₂ n₂ := by
  rw [hd, hn]

/-- Witness for C7: two identical calls agree. -/
theorem calculate_stats_deterministic_witness :
    calculate_stats [⟨3, 2⟩] 9 = calculate_stats [⟨3, 2⟩] 9 :=
  calculate_stats_deterministic [⟨3, 2⟩] [⟨3, 2⟩] 9 9 rfl rfl

/-- C9: for every non-empty history, `rate8h` is the rate of the first
element of a descending-by-time sorted copy of the history, an observation
carrying the maximal timestamp; the history itself is a value the
computation never mutates (the sort copies). -/
theorem calculate_stats_current_rate (data : List Obs) (now : ℤ)
    (h : data ≠ []) :
    ∃ s, calculate_stats data now = some s ∧
      ∃ d, (sortDesc data).head? = some d ∧ d ∈ data ∧
        s.rate8h = d.fundingRate ∧ ∀ x ∈ data, x.time ≤ d.time := by
  obtain ⟨d, rest, hd⟩ : ∃ d rest, sortDesc data = d :: rest := by
    cases hsd : sortDesc data with
    | nil => exact absurd (sortDesc_eq_nil_iff.1 hsd) h
    | cons d rest => exact ⟨d, rest, rfl⟩
  refine ⟨_, calculate_stats_eq data now h, d, ?_, ?_, ?_, head_time_max hd⟩
  · rw [hd]
    rfl
  · exact (sortDesc_perm data).mem_iff.1 (by
      rw [hd]
      exact List.mem_cons_self d rest)
  · dsimp only
    rw [hd]

/-- Witness for C9 at a two-record history whose later record comes first. -/
theorem calculate_stats_current_rate_witness :
    ∃ s, calculate_stats [⟨0, 1⟩, ⟨5, 3⟩] 7 = some s ∧
      ∃ d, (sortDesc [⟨0, 1⟩, ⟨5, 3⟩]).head? = some d ∧
        d ∈ [(⟨0, 1⟩ : Obs), ⟨5, 3⟩] ∧ s.rate8h = d.fundingRate ∧
        ∀ x ∈ [(⟨0, 1⟩ : Obs), ⟨5, 3⟩], x.time ≤ d.time :=
  calculate_stats_current_rate [⟨0, 1⟩, ⟨5, 3⟩] 7 (by simp)

/-! ## Lemmas about the retry and pagination loops -/

/-- Three rate-limited attempts on one page: the same cursor is issued three
times, the backoffs are 2, 4, 6 seconds, and the loop's `else` clause asks
the outer loop to `return all_data`. -/
lemma retryAux_rate_limited (oracle : ℕ → Resp) (cursor : ℤ)
    (h0 : oracle 0 = .rateLimited) (h1 : oracle 1 = .rateLimited)
    (h2 : oracle 2 = .rateLimited) :
    retryAux oracle cursor 3 = ⟨.ret [], [2, 4, 6], [cursor, cursor, cursor]⟩ := by
  simp [retryAux, h0, h1, h2]

/-- A non-200, non-429 status on the first attempt: one request, no sleeps,
immediate `return all_data`. -/
lemma retryAux_other_status (oracle : ℕ → Resp) (cursor : ℤ) (fuel : ℕ)
    (h0 : oracle 0 = .otherStatus) :
    retryAux oracle cursor (fuel + 1) = ⟨.ret [], [], [cursor]⟩ := by
  simp [retryAux, h0]

/-- Three transport exceptions on one page: 1-second waits between attempts
(none after the last) and `return all_data`. -/
lemma retryAux_exn (oracle : ℕ → Resp) (cursor : ℤ)
    (h0 : oracle 0 = .exn) (h1 : oracle 1 = .exn) (h2 : oracle 2 = .exn) :
    retryAux oracle cursor 3 = ⟨.ret [], [1, 1], [cursor, cursor, cursor]⟩ := by
  simp [retryAux, h0, h1, h2]

/-- A successful full page (≥ 500 records) on the first attempt. -/
lemma retryAux_full_page (oracle : ℕ → Resp) (cursor : ℤ) (fuel : ℕ)
    (data : List Obs) (h0 : oracle 0 = .ok data) (hlen : 500 ≤ data.length) :
    retryAux oracle cursor (fuel + 1) = ⟨.next data, [], [cursor]⟩ := by
  have hne : ¬data = [] := by
    intro h
    rw [h] at hlen
    simp at hlen
  have hge : ¬data.length < 500 := by omega
  simp [retryAux, h0, hne, hge]

/-- Unfolding of one pagination step when the inner loop says `return`. -/
lemma pageAux_succ_ret (oracle : ℕ → Resp) (fuel : ℕ) (acc : List Obs)
    (cursor : ℤ) (extra : List Obs)
    (h : (retryAux oracle cursor 3).res = .ret extra) :
    pageAux oracle (fuel + 1) acc cursor =
      ⟨acc ++ extra, (retryAux oracle cursor 3).sleeps,
        (retryAux oracle cursor 3).issued, 1⟩ := by
  simp only [pageAux]
  rw [h]

/-- Unfolding of one pagination step when the inner loop delivers a full
page and the cursor advances past its maximal timestamp. -/
lemma pageAux_succ_next (oracle : ℕ → Resp) (fuel : ℕ) (acc : List Obs)
    (cursor : ℤ) (data : List Obs)
    (h : (retryAux oracle cursor 3).res = .next data) :
    pageAux oracle (fuel + 1) acc cursor =
      ⟨(pageAux (fun i => oracle (i + (retryAux oracle cursor 3).issued.length))
          fuel (acc ++ data) (maxTime data + 1)).history,
        (retryAux oracle cursor 3).sleeps ++
          (pageAux (fun i => oracle (i + (retryAux oracle cursor 3).issued.length))
            fuel (acc ++ data) (maxTime data + 1)).sleeps,
        (retryAux oracle cursor 3).issued ++
          (pageAux (fun i => oracle (i + (retryAux oracle cursor 3).issued.length))
            fuel (acc ++ data) (maxTime data + 1)).issued,
        1 + (pageAux (fun i => oracle (i + (retryAux oracle cursor 3).issued.length))
          fuel (acc ++ data) (maxTime data + 1)).pages⟩ := by
  simp only [pageAux]
  rw [h]

/-- The pagination loop never performs more iterations than its fuel. -/
lemma pageAux_pages_le (oracle : ℕ → Resp) (fuel : ℕ) (acc : List Obs)
    (cursor : ℤ) : (pageAux oracle fuel acc cursor).pages ≤ fuel := by
  induction fuel generalizing oracle acc cursor with
  | zero => exact le_refl 0
  | succ n ih =>
    cases hres : (retryAux oracle cursor 3).res with
    | ret extra =>
      rw [pageAux_succ_ret oracle n acc cursor extra hres]
      dsimp only
      omega
    | next data =>
      rw [pageAux_succ_next oracle n acc cursor data hres]
      have := ih (fun i => oracle (i + (retryAux oracle cursor 3).issued.length))
        (acc ++ data) (maxTime data + 1)
      dsimp only
      omega

/-- Against an upstream that answers every request with the same full page,
the loop runs exactly its fuel's worth of iterations and accumulates one
copy of the page per iteration. -/
lemma pageAux_const_full (p : List Obs) (hp : 500 ≤ p.length) (fuel : ℕ) :
    ∀ (acc : List Obs) (cursor : ℤ),
      (pageAux (fun _ => .ok p) fuel acc cursor).history =
        acc ++ (List.replicate fuel p).flatten ∧
      (pageAux (fun _ => .ok p) fuel acc cursor).pages = fuel := by
  induction fuel with
  | zero =>
    intro acc cursor
    simp [pageAux]
  | succ n ih =>
    intro acc cursor
    have hr := retryAux_full_page (fun _ => .ok p) cursor 2 p rfl hp
    rw [pageAux_succ_next (fun _ => .ok p) n acc cursor p (by rw [hr])]
    obtain ⟨ihh, ihp⟩ := ih (acc ++ p) (maxTime p + 1)
    dsimp only
    constructor
    · rw [ihh]
      simp [List.replicate_succ, List.append_assoc]
    · omega

/-- C2: at any point of a `fetch_funding_history` run (any remaining fuel
`fuel + 1` and accumulated pages `acc`), if the upstream rate-limits all
three attempts for the current page, the function retries the same cursor
exactly three times with backoffs 2, 4, 6 seconds and then returns `acc` —
the pages accumulated so far — rather than raising; on any other non-200
status it returns `acc` immediately after the single request. -/
theorem fetch_history_rate_limit_and_status (oracle : ℕ → Resp) (cursor : ℤ)
    (acc : List Obs) (fuel : ℕ) :
    ((oracle 0 = .rateLimited ∧ oracle 1 = .rateLimited ∧
        oracle 2 = .rateLimited) →
      pageAux oracle (fuel + 1) acc cursor =
        ⟨acc, [2, 4, 6], [cursor, cursor, cursor], 1⟩) ∧
    (oracle 0 = .otherStatus →
      pageAux oracle (fuel + 1) acc cursor = ⟨acc, [], [cursor], 1⟩) := by
  constructor
  · rintro ⟨h0, h1, h2⟩
    have hr := retryAux_rate_limited oracle cursor h0 h1 h2
    rw [pageAux_succ_ret oracle fuel acc cursor [] (by rw [hr]), hr]
    simp
  · intro h0
    have hr := retryAux_other_status oracle cursor 2 h0
    rw [pageAux_succ_ret oracle fuel acc cursor [] (by rw [hr]), hr]
    simp

/-- Witness for C2: a permanently rate-limiting upstream and a first-request
error status, at cursor 7 with one already-accumulated record. -/
theorem fetch_history_rate_limit_and_status_witness :
    pageAux (fun _ => Resp.rateLimited) (19 + 1) [⟨1, 2⟩] 7 =
        ⟨[⟨1, 2⟩], [2, 4, 6], [7, 7, 7], 1⟩ ∧
      pageAux (fun _ => Resp.otherStatus) (19 + 1) [⟨1, 2⟩] 7 =
        ⟨[⟨1, 2⟩], [], [7], 1⟩ :=
  ⟨(fetch_history_rate_limit_and_status (fun _ => Resp.rateLimited) 7
      [⟨1, 2⟩] 19).1 ⟨rfl, rfl, rfl⟩,
    (fetch_history_rate_limit_and_status (fun _ => Resp.otherStatus) 7
      [⟨1, 2⟩] 19).2 rfl⟩

/-- C3: `fetch_funding_history` performs at most 20 pagination iterations
against any upstream whatsoever, and against an upstream that answers every
request with the same full 500-record page it stops exactly at the cap,
returning the 20 pages accumulated up to that point. -/
theorem fetch_history_page_cap (oracle : ℕ → Resp) (start_time : ℤ)
    (end_time : Option ℤ) (p : List Obs) (hp : 500 ≤ p.length) :
    (fetch_funding_history oracle start_time end_time).pages ≤ 20 ∧
    (fetch_funding_history (fun _ => .ok p) start_time end_time).pages = 20 ∧
    (fetch_funding_history (fun _ => .ok p) start_time end_time).history =
      (List.replicate 20 p).flatten := by
  refine ⟨pageAux_pages_le oracle 20 [] start_time, ?_, ?_⟩
  · exact (pageAux_const_full p hp 20 [] start_time).2
  · have := (pageAux_const_full p hp 20 [] start_time).1
    simpa using this

/-- Witness for C3 with an exception-throwing upstream for the first
conjunct and the 500-record page `replicate 500 {time := 0, rate := 0}`. -/
theorem fetch_history_page_cap_witness :
    (fetch_funding_history (fun _ => Resp.exn) 0 none).pages ≤ 20 ∧
    (fetch_funding_history (fun _ => Resp.ok (List.replicate 500 ⟨0, 0⟩)) 0
      none).pages = 20 ∧
    (fetch_funding_history (fun _ => Resp.ok (List.replicate 500 ⟨0, 0⟩)) 0
        none).history =
      (List.replicate 20 (List.replicate 500 (⟨0, 0⟩ : Obs))).flatten :=
  fetch_history_page_cap (fun _ => Resp.exn) 0 none
    (List.replicate 500 ⟨0, 0⟩) (by rw [List.length_replicate])

/-- If the upstream serves the full pages of `pages` in order (one request
each) and then fails the next page's whole retry budget with transport
exceptions, the loop returns exactly the concatenation of those pages. -/
lemma pageAux_concat (pages : List (List Obs)) :
    ∀ (oracle : ℕ → Resp) (fuel : ℕ) (acc : List Obs) (cursor : ℤ),
      pages.length < fuel →
      (∀ p ∈ pages, 500 ≤ p.length) →
      (∀ i (h : i < pages.length), oracle i = .ok (pages.get ⟨i, h⟩)) →
      (∀ j < 3, oracle (pages.length + j) = .exn) →
      (pageAux oracle fuel acc cursor).history = acc ++ pages.flatten := by
  induction pages with
  | nil =>
    intro oracle fuel acc cursor hfuel _ _ hfail
    obtain ⟨f, rfl⟩ : ∃ f, fuel = f + 1 := ⟨fuel - 1, by omega⟩
    have h0 : oracle 0 = .exn := by simpa using hfail 0 (by omega)
    have h1 : oracle 1 = .exn := by simpa using hfail 1 (by omega)
    have h2 : oracle 2 = .exn := by simpa using hfail 2 (by omega)
    have hr := retryAux_exn oracle cursor h0 h1 h2
    rw [pageAux_succ_ret oracle f acc cursor [] (by rw [hr])]
    simp
  | cons p rest ih =>
    intro oracle fuel acc cursor hfuel hsz hok hfail
    obtain ⟨f, rfl⟩ : ∃ f, fuel = f + 1 := ⟨fuel - 1, by omega⟩
    have h0 : oracle 0 = .ok p := by simpa using hok 0 (by simp)
    have hp : 500 ≤ p.length := hsz p (List.mem_cons_self p rest)
    have hr := retryAux_full_page oracle cursor 2 p h0 hp
    rw [pageAux_succ_next oracle f acc cursor p (by rw [hr]), hr]
    dsimp only
    simp only [List.length_singleton]
    have hind := ih (fun i => oracle (i + 1)) f (acc ++ p) (maxTime p + 1)
      (by simpa using hfuel)
      (fun q hq => hsz q (List.mem_cons_of_mem p hq))
      (fun i h => by
        have := hok (i + 1) (by simpa using Nat.succ_lt_succ h)
        simpa using this)
      (fun j hj => by
        have := hfail j hj
        simpa [Nat.add_comm, Nat.add_assoc, Nat.add_left_comm] using this)
    rw [hind]
    simp

/-- C4: if `fetch_funding_history`'s first `N - 1` page requests succeed
(with full pages, which is what makes the loop continue) and the `N`-th page
fails with transport errors exhausting the 3-attempt retry budget, the
returned history is the concatenation of the `N - 1` successful pages in
order — nothing lost, nothing duplicated. -/
theorem fetch_history_failed_page_keeps_data (pages : List (List Obs))
    (oracle : ℕ → Resp) (start_time : ℤ) (end_time : Option ℤ)
    (hlen : pages.length ≤ 19)
    (hsz : ∀ p ∈ pages, 500 ≤ p.length)
    (hok : ∀ i (h : i < pages.length), oracle i = .ok (pages.get ⟨i, h⟩))
    (hfail : ∀ j < 3, oracle (pages.length + j) = .exn) :
    (fetch_funding_history oracle start_time end_time).history =
      pages.flatten := by
  have := pageAux_concat pages oracle 20 [] start_time (by omega) hsz hok hfail
  simpa using this

/-- Witness for C4: one successful 500-record page, then transport failure. -/
theorem fetch_history_failed_page_keeps_data_witness :
    (fetch_funding_history
        (fun k => if k = 0 then Resp.ok (List.replicate 500 ⟨0, 0⟩) else Resp.exn)
        0 none).history =
      [List.replicate 500 (⟨0, 0⟩ : Obs)].flatten :=
  fetch_history_failed_page_keeps_data [List.replicate 500 ⟨0, 0⟩]
    (fun k => if k = 0 then Resp.ok (List.replicate 500 ⟨0, 0⟩) else Resp.exn)
    0 none
    (by
      rw [List.length_singleton]
      omega)
    (by
      intro p hp
      rw [List.mem_singleton] at hp
      rw [hp, List.length_replicate])
    (by
      intro i h
      rw [List.length_singleton] at h
      have hi : i = 0 := by omega
      subst hi
      rfl)
    (by
      intro j _
      simp only [List.length_singleton]
      rw [if_neg (by omega : ¬(1 + j = 0))])

/-- C10: `fetch_coin_data` is total, returns the coin it was given, and its
record has `stats = none` exactly when its history is empty: a non-empty
fetched history always gets non-null stats, while an empty history or an
exception inside the `try` body yields `{'history': [], 'stats': None}`. -/
theorem fetch_coin_data_stats_iff_history (coin : String) (oracle : ℕ → Resp)
    (start_time end_time now : ℤ) (raised : Bool) :
    (fetch_coin_data coin oracle start_time end_time now raised).1 = coin ∧
    ((fetch_coin_data coin oracle start_time end_time now raised).2.stats = none ↔
      (fetch_coin_data coin oracle start_time end_time now raised).2.history = []) := by
  unfold fetch_coin_data
  cases raised with
  | true => simp
  | false =>
    by_cases hh :
        (fetch_funding_history oracle start_time (some end_time)).history = []
    · simp [hh]
    · have hs := calculate_stats_eq _ now hh
      simp [hh, hs]

/-! ## Catalog fetcher: claim C8 -/

/-- Counterexample to C8 as stated: a 200 catalog response whose second
universe entry is malformed (its snapshot conversion raises mid-loop) makes
`get_all_perp_assets` keep a **partially filled**, non-empty symbol list for
the namespace instead of an empty one. -/
theorem get_all_perp_assets_not_empty_on_malformed_entry :
    fetchNamespace (.ok [.good "AAPL" zeroSnapshot, .badCtx "TSLA"]) =
      (["AAPL", "TSLA"], [("AAPL", zeroSnapshot)]) ∧
    (fetchNamespace (.ok [.good "AAPL" zeroSnapshot, .badCtx "TSLA"])).1 ≠
      ([] : List String) := by
  constructor
  · rfl
  · decide

/-- Prepending well-formed universe entries accumulates them in front of
whatever the remaining entries contribute. -/
lemma zipAccum_goods (pre : List (String × MarketSnapshot))
    (tail : List CatalogEntry) :
    zipAccum (pre.map (fun q => CatalogEntry.good q.1 q.2) ++ tail) =
      (pre.map Prod.fst ++ (zipAccum tail).1, pre ++ (zipAccum tail).2) := by
  induction pre with
  | nil => simp
  | cons q pre ih => simp [zipAccum, ih]

/-- C8 amended: a transport error, a non-200 status, or a body that is not a
list of length ≥ 2 yields an empty symbol list and empty snapshot mapping
for the namespace; an exception raised while processing an individual
universe entry instead keeps the symbols and snapshots accumulated before
it (a possibly partially filled list).  In every case the failure is
absorbed inside the namespace block, so the extended-market symbols the run
continues with do not depend on the primary namespace's response. -/
theorem get_all_perp_assets_error_absorption
    (pre : List (String × MarketSnapshot)) (n : String)
    (rest : List CatalogEntry) (include_main_perp : Bool)
    (mainResp hip3Resp : CatalogResp) :
    fetchNamespace .exn = ([], []) ∧
    fetchNamespace .notOk = ([], []) ∧
    fetchNamespace .malformed = ([], []) ∧
    fetchNamespace (.ok (pre.map (fun q => CatalogEntry.good q.1 q.2) ++
        CatalogEntry.badName :: rest)) = (pre.map Prod.fst, pre) ∧
    fetchNamespace (.ok (pre.map (fun q => CatalogEntry.good q.1 q.2) ++
        CatalogEntry.badCtx n :: rest)) = (pre.map Prod.fst ++ [n], pre) ∧
    (get_all_perp_assets include_main_perp mainResp hip3Resp).2.1 =
      (fetchNamespace hip3Resp).1 := by
  refine ⟨rfl, rfl, rfl, ?_, ?_, ?_⟩
  · show zipAccum _ = _
    rw [zipAccum_goods]
    simp [zipAccum]
  · show zipAccum _ = _
    rw [zipAccum_goods]
    simp [zipAccum]
  · simp [get_all_perp_assets]

/-! ## Orchestrator: claims C1 and C10 support -/

lemma fetch_coin_data_fst (coin : String) (oracle : ℕ → Resp)
    (start_time end_time now : ℤ) (raised : Bool) :
    (fetch_coin_data coin oracle start_time end_time now raised).1 = coin := by
  unfold fetch_coin_data
  cases raised with
  | true => rfl
  | false =>
    dsimp only
    split
    · rfl
    · split <;> rfl

lemma processCoin_fst (coin : String) (md : List (String × MarketSnapshot))
    (oracle : ℕ → Resp) (start_time end_time now : ℤ) (ri ro : Bool) :
    (processCoin coin md oracle start_time end_time now ri ro).1 = coin := by
  unfold processCoin
  cases ro with
  | true => rfl
  | false =>
    dsimp only
    exact fetch_coin_data_fst coin oracle start_time end_time now ri

/-- If either exception flag of a coin is set, its stored record is the
degraded `{'history': [], 'stats': None}` one. -/
lemma processCoin_failure (coin : String) (md : List (String × MarketSnapshot))
    (oracle : ℕ → Resp) (start_time end_time now : ℤ) (ri ro : Bool)
    (h : ri = true ∨ ro = true) :
    (processCoin coin md oracle start_time end_time now ri ro).2.stats = none ∧
    (processCoin coin md oracle start_time end_time now ri ro).2.history = [] := by
  unfold processCoin
  cases ro with
  | true => exact ⟨rfl, rfl⟩
  | false =>
    rcases h with h | h
    · subst h
      exact ⟨rfl, rfl⟩
    · cases h

/-- The dict built by the orchestration loop maps every listed coin to the
record its iteration computes (later duplicates recompute the identical
record, so last-write-wins is invisible). -/
lemma mainLoop_lookup (md : List (String × MarketSnapshot))
    (behav : String → ℕ → Resp) (ri ro : String → Bool)
    (start_time end_time now : ℤ) :
    ∀ (assets : List String) (m : String → Option FullRecord) (coin : String),
      (assets.foldl
        (fun m coin =>
          let (k, v) := processCoin coin md (behav coin) start_time end_time now
            (ri coin) (ro coin)
          fun x => if x = k then some v else m x) m) coin =
        if coin ∈ assets then
          some (processCoin coin md (behav coin) start_time end_time now
            (ri coin) (ro coin)).2
        else m coin := by
  intro assets
  induction assets with
  | nil =>
    intro m coin
    simp
  | cons a rest ih =>
    intro m coin
    rw [List.foldl_cons, ih]
    by_cases hrest : coin ∈ rest
    · rw [if_pos hrest, if_pos (List.mem_cons_of_mem a hrest)]
    · rw [if_neg hrest]
      dsimp only
      rw [processCoin_fst]
      by_cases ha : coin = a
      · subst ha
        rw [if_pos rfl, if_pos (List.mem_cons_self coin rest)]
      · rw [if_neg ha, if_neg (by
          intro hc
          rcases List.mem_cons.1 hc with hc | hc
          · exact ha hc
          · exact hrest hc)]

/-- C1: every symbol of the combined catalog list (primary ++
extended-market) is mapped to exactly one record by the orchestration loop
(the result is a mapping, so one record per key), whatever the upstream
behaviour and whatever exceptions are raised for other symbols; a symbol
whose fetch or summarization raises (inside `fetch_coin_data` or in the
loop body) still appears, with `stats = None` and an empty history. -/
theorem main_total_coverage (main_assets hip3_assets : List String)
    (md : List (String × MarketSnapshot)) (behav : String → ℕ → Resp)
    (ri ro : String → Bool) (start_time end_time now : ℤ) :
    ∀ coin ∈ main_assets ++ hip3_assets,
      ∃ r, mainLoop (main_assets ++ hip3_assets) md behav ri ro
          start_time end_time now coin = some r ∧
        ((ri coin = true ∨ ro coin = true) →
          r.stats = none ∧ r.history = []) := by
  intro coin hc
  refine ⟨(processCoin coin md (behav coin) start_time end_time now
    (ri coin) (ro coin)).2, ?_, ?_⟩
  · unfold mainLoop
    rw [mainLoop_lookup md behav ri ro start_time end_time now
      (main_assets ++ hip3_assets) (fun _ => none) coin]
    rw [if_pos hc]
  · exact processCoin_failure coin md (behav coin) start_time end_time now
      (ri coin) (ro coin)

/-- Witness for C1: a two-namespace asset list where the first coin's fetch
raises internally and an exception-throwing upstream. -/
theorem main_total_coverage_witness :
    ∃ r, mainLoop (["BTC"] ++ ["xyz:AAPL"]) [] (fun _ _ => Resp.exn)
        (fun _ => true) (fun _ => false) 0 0 0 "BTC" = some r ∧
      (((fun (_ : String) => true) "BTC" = true ∨
          (fun (_ : String) => false) "BTC" = true) →
        r.stats = none ∧ r.history = []) :=
  main_total_coverage ["BTC"] ["xyz:AAPL"] [] (fun _ _ => Resp.exn)
    (fun _ => true) (fun _ => false) 0 0 0 "BTC" (by simp)

end HypeFunding
